import Mathlib

set_option maxHeartbeats 1000000

/-!
Shallow embedding of the extractive-summarization core of this repository
(src/helpers.py and src/app.py).  Python strings are modelled as `List Char`;
the regular-expression helpers of the source are translated into structural
recursions on character lists so that every definition evaluates on concrete
inputs.  Character budgets and word budgets are natural numbers, matching the
non-negative defaults used by the source (3000, 4000, 100, 150).
-/

/-- Python's `\s` whitespace class (as used by `str.split`, `str.strip`,
`re.split(r'(?<=[.!?])\s+', ...)` and `re.sub(r'\s+', ' ', ...)`),
restricted to the ASCII whitespace characters. -/
def isWS (c : Char) : Bool :=
  c = ' ' || c = '\t' || c = '\n' || c = '\r' || c = '\x0b' || c = '\x0c'

/-- The sentence-boundary punctuation class `[.!?]` of the regex
`(?<=[.!?])\s+` used by both source files. -/
def isPunct (c : Char) : Bool :=
  c = '.' || c = '!' || c = '?'

/-- True when the list begins with a non-whitespace character. -/
def headNonWS : List Char → Bool
  | [] => false
  | c :: _ => !isWS c

/-- True when the list begins with a whitespace character. -/
def startsWS : List Char → Bool
  | [] => false
  | c :: _ => isWS c

/-- Prepends a character to the first element of a list of character lists;
used when a scanner extends the piece currently being built. -/
def consHead (c : Char) : List (List Char) → List (List Char)
  | [] => [[c]]
  | w :: ws => (c :: w) :: ws

/-- Embeds Python `str.split()` (with no separator argument): the ordered
list of maximal non-whitespace runs of the string. -/
def pySplit : List Char → List (List Char)
  | [] => []
  | c :: rest =>
    if isWS c then pySplit rest
    else if headNonWS rest then consHead c (pySplit rest)
    else [c] :: pySplit rest

/-- Embeds `len(s.split())`, the word count used by the greedy budget loops
in `summarize_lexrank` (src/helpers.py lines 106 and 119). -/
def wordCount (s : List Char) : Nat :=
  (pySplit s).length

/-- Embeds Python `" ".join(strs)`. -/
def joinSp : List (List Char) → List Char
  | [] => []
  | [s] => s
  | s :: t :: rest => s ++ ' ' :: joinSp (t :: rest)

/-- Removes trailing whitespace characters (the right half of
Python `str.strip()`). -/
def dropTrailWS : List Char → List Char
  | [] => []
  | c :: rest =>
    match dropTrailWS rest with
    | [] => if isWS c then [] else [c]
    | r => c :: r

/-- Embeds Python `str.strip()`: drop leading then trailing whitespace. -/
def strip (l : List Char) : List Char :=
  dropTrailWS (l.dropWhile isWS)

/-- Scanner for `re.split(r'(?<=[.!?])\s+', text)`.  The Boolean flag is
true while the scanner is consuming the `\s+` run that follows a sentence
boundary (the lookbehind `(?<=[.!?])` requires the character before the
whitespace run to be `.`, `!` or `?`, and `\s+` is consumed greedily). -/
def ssAux : List Char → Bool → List (List Char)
  | [], _ => [[]]
  | c :: rest, skip =>
    if skip && isWS c then ssAux rest true
    else if isPunct c && startsWS rest then [c] :: ssAux rest true
    else consHead c (ssAux rest false)

/-- Embeds `re.split(r'(?<=[.!?])\s+', text)`, the sentence splitter used by
`chunk_text`, the fallback path of `summarize_lexrank`, and the bullet
digest (src/helpers.py lines 83, 115; src/app.py lines 78, 99, 196). -/
def splitSentences (t : List Char) : List (List Char) :=
  ssAux t false

/-- Embeds `re.sub(r'\s+', ' ', t)`: every maximal whitespace run is
replaced by a single space character. -/
def collapseWS : List Char → List Char
  | [] => []
  | [c] => if isWS c then [' '] else [c]
  | c :: d :: rest =>
    if isWS c then
      if isWS d then collapseWS (d :: rest) else ' ' :: collapseWS (d :: rest)
    else c :: collapseWS (d :: rest)

namespace helpers

/-- The greedy word-budget loop on the ranking path of `summarize_lexrank`
(src/helpers.py lines 103-110): walk the candidate sentences in order,
keep a running word count, append a sentence only while the running total
stays within `maxWords`, and stop at the first candidate that would
exceed the budget. -/
def takeBudgetRank (maxWords : Nat) : List (List Char) → Nat → List (List Char)
  | [], _ => []
  | s :: rest, wc =>
    if maxWords < wc + wordCount s then []
    else s :: takeBudgetRank maxWords rest (wc + wordCount s)

/-- The greedy word-budget loop on the fallback path of `summarize_lexrank`
(src/helpers.py lines 116-123), written out separately because the source
repeats the loop. -/
def takeBudgetFallback (maxWords : Nat) : List (List Char) → Nat → List (List Char)
  | [], _ => []
  | s :: rest, wc =>
    if maxWords < wc + wordCount s then []
    else s :: takeBudgetFallback maxWords rest (wc + wordCount s)

/-- Embeds `summarize_lexrank` from src/helpers.py (lines 96-125).  The
LexRank ranking step is performed by the external `sumy` library, which is
not part of this repository.  Modelled from the spec: per spec section 4.3
the ranker yields an ordered list of sentence strings, most important
first, or fails; `rankResult = some ranked` models a successful ranking
returning `ranked`, and `rankResult = none` models a ranking failure (any
exception caught by the `except` clause, which triggers the fallback that
re-splits `text` into sentences in original document order). -/
def summarize_lexrank (rankResult : Option (List (List Char)))
    (text : List Char) (maxWords : Nat) : List Char :=
  match rankResult with
  | some ranked => joinSp (takeBudgetRank maxWords ranked 0)
  | none => joinSp (takeBudgetFallback maxWords (splitSentences text) 0)

/-- The sentence-accumulation loop of `chunk_text` (src/helpers.py lines
84-93), including the final flush of the buffer: a buffer that would
overflow `maxChars` is flushed (stripped, and dropped when the stripped
buffer is empty) and restarted at the current sentence; otherwise the
sentence is appended to the buffer with a single separating space. -/
def chunkLoop (maxChars : Nat) :
    List (List Char) → List (List Char) → List Char → List (List Char)
  | [], chunks, buf => chunks ++ (if strip buf = [] then [] else [strip buf])
  | s :: rest, chunks, buf =>
    if maxChars < buf.length + s.length + 1 then
      chunkLoop maxChars rest
        (chunks ++ (if strip buf = [] then [] else [strip buf])) s
    else
      chunkLoop maxChars rest chunks
        (buf ++ (if buf = [] then [] else [' ']) ++ s)

/-- Embeds `chunk_text` from src/helpers.py (lines 78-94). -/
def chunk_text (text : List Char) (maxChars : Nat) : List (List Char) :=
  if text.length ≤ maxChars then [text]
  else chunkLoop maxChars (splitSentences text) [] []

/-- Embeds `clean_text` from src/helpers.py (lines 138-140):
`re.sub(r'\s+', ' ', t).strip()`. -/
def clean_text (t : List Char) : List Char :=
  strip (collapseWS t)

end helpers

namespace app

/-- The sentence-accumulation loop of `chunk_text` from src/app.py (lines
79-88), textually identical to the loop in src/helpers.py. -/
def chunkLoop (maxChars : Nat) :
    List (List Char) → List (List Char) → List Char → List (List Char)
  | [], chunks, buf => chunks ++ (if strip buf = [] then [] else [strip buf])
  | s :: rest, chunks, buf =>
    if maxChars < buf.length + s.length + 1 then
      chunkLoop maxChars rest
        (chunks ++ (if strip buf = [] then [] else [strip buf])) s
    else
      chunkLoop maxChars rest chunks
        (buf ++ (if buf = [] then [] else [' ']) ++ s)

/-- Embeds `chunk_text` from src/app.py (lines 73-89). -/
def chunk_text (text : List Char) (maxChars : Nat) : List (List Char) :=
  if text.length ≤ maxChars then [text]
  else chunkLoop maxChars (splitSentences text) [] []

/-- Embeds the bullet-digest computation of src/app.py (lines 196-198):
split the consolidated summary into sentences, keep the trimmed non-empty
ones, and take the first `max 5 maxSentences` of them, where
`maxSentences` is the configured summary-length slider value. -/
def bullets (overall : List Char) (maxSentences : Nat) : List (List Char) :=
  (((splitSentences overall).filter (fun b => !(strip b).isEmpty)).map strip).take
    (max 5 maxSentences)

end app

/-- Specification predicate (not a source function): true when the string
contains no two adjacent whitespace characters, i.e. no whitespace run of
length two or more. -/
def noTwoWS : List Char → Bool
  | c :: d :: rest => (!(isWS c && isWS d)) && noTwoWS (d :: rest)
  | _ => true

/-! ### Basic facts about words, joining and splitting -/

theorem consHead_ne_nil (c : Char) (L : List (List Char)) : consHead c L ≠ [] := by
  cases L <;> simp [consHead]

theorem consHead_append (c : Char) {L : List (List Char)} (M : List (List Char))
    (h : L ≠ []) : consHead c (L ++ M) = consHead c L ++ M := by
  cases L with
  | nil => exact absurd rfl h
  | cons p ps => simp [consHead]

theorem pySplit_cons_ws (c : Char) (l : List Char) (h : isWS c = true) :
    pySplit (c :: l) = pySplit l := by
  simp [pySplit, h]

theorem pySplit_cons_word {c : Char} {l : List Char} (hc : isWS c = false)
    (hr : headNonWS l = true) : pySplit (c :: l) = consHead c (pySplit l) := by
  simp [pySplit, hc, hr]

theorem pySplit_cons_new {c : Char} {l : List Char} (hc : isWS c = false)
    (hr : headNonWS l = false) : pySplit (c :: l) = [c] :: pySplit l := by
  simp [pySplit, hc, hr]

theorem pySplit_ne_nil {l : List Char} (h : headNonWS l = true) : pySplit l ≠ [] := by
  cases l with
  | nil => simp [headNonWS] at h
  | cons c rest =>
    have hc : isWS c = false := by
      simpa [headNonWS] using h
    by_cases hr : headNonWS rest
    · rw [pySplit_cons_word hc hr]; exact consHead_ne_nil c _
    · rw [pySplit_cons_new hc (by simpa using hr)]; simp

theorem joinSp_cons {L : List (List Char)} (s : List Char) (h : L ≠ []) :
    joinSp (s :: L) = s ++ ' ' :: joinSp L := by
  cases L with
  | nil => exact absurd rfl h
  | cons t r => rfl

theorem joinSp_consHead {L : List (List Char)} (c : Char) (h : L ≠ []) :
    joinSp (consHead c L) = c :: joinSp L := by
  cases L with
  | nil => exact absurd rfl h
  | cons p ps =>
    cases ps with
    | nil => rfl
    | cons q ps' => simp [consHead, joinSp]

theorem pySplit_append_space : ∀ (a b : List Char),
    pySplit (a ++ ' ' :: b) = pySplit a ++ pySplit b
  | [], b => by
    rw [List.nil_append, pySplit_cons_ws ' ' b (by decide)]
    rfl
  | c :: a', b => by
    by_cases hc : isWS c
    · rw [List.cons_append, pySplit_cons_ws c _ hc, pySplit_cons_ws c _ hc,
        pySplit_append_space a' b]
    · have hc' : isWS c = false := by simpa using hc
      cases a' with
      | nil =>
        rw [List.cons_append, List.nil_append,
          pySplit_cons_new hc' (by simp [headNonWS]; decide),
          pySplit_cons_ws ' ' b (by decide),
          pySplit_cons_new hc' (by simp [headNonWS])]
        rfl
      | cons d a'' =>
        by_cases hd : isWS d
        · have h1 : headNonWS ((d :: a'') ++ ' ' :: b) = false := by
            simp [headNonWS, hd]
          have h2 : headNonWS (d :: a'') = false := by simp [headNonWS, hd]
          rw [List.cons_append, pySplit_cons_new hc' h1, pySplit_cons_new hc' h2,
            pySplit_append_space (d :: a'') b]
          rfl
        · have h1 : headNonWS ((d :: a'') ++ ' ' :: b) = true := by
            simp [headNonWS, hd]
          have h2 : headNonWS (d :: a'') = true := by simp [headNonWS, hd]
          rw [List.cons_append, pySplit_cons_word hc' h1, pySplit_cons_word hc' h2,
            pySplit_append_space (d :: a'') b,
            consHead_append c (pySplit b) (pySplit_ne_nil h2)]

theorem pySplit_joinSp : ∀ (L : List (List Char)),
    pySplit (joinSp L) = (L.map pySplit).flatten
  | [] => by simp [joinSp, pySplit]
  | [s] => by simp [joinSp]
  | s :: t :: r => by
    rw [joinSp, pySplit_append_space, pySplit_joinSp (t :: r)]
    simp

theorem pySplit_dropWhile : ∀ (l : List Char),
    pySplit (l.dropWhile isWS) = pySplit l
  | [] => rfl
  | c :: rest => by
    by_cases hc : isWS c
    · rw [List.dropWhile_cons_of_pos hc, pySplit_dropWhile rest, pySplit_cons_ws c rest hc]
    · rw [List.dropWhile_cons_of_neg hc]

theorem pySplit_eq_nil_iff : ∀ (l : List Char), pySplit l = [] ↔ l.all isWS
  | [] => by simp [pySplit]
  | c :: rest => by
    by_cases hc : isWS c
    · rw [pySplit_cons_ws c rest hc]
      simp [hc, pySplit_eq_nil_iff rest]
    · have hc' : isWS c = false := by simpa using hc
      by_cases hr : headNonWS rest
      · rw [pySplit_cons_word hc' hr]
        simp [hc', consHead_ne_nil]
      · rw [pySplit_cons_new hc' (by simpa using hr)]
        simp [hc']

theorem mem_pySplit_ne_nil : ∀ (l : List Char) (w : List Char), w ∈ pySplit l → w ≠ []
  | [], w => by simp [pySplit]
  | c :: rest, w => by
    by_cases hc : isWS c
    · rw [pySplit_cons_ws c rest hc]
      exact mem_pySplit_ne_nil rest w
    · have hc' : isWS c = false := by simpa using hc
      by_cases hr : headNonWS rest
      · rw [pySplit_cons_word hc' hr]
        cases hps : pySplit rest with
        | nil => exact absurd hps (pySplit_ne_nil hr)
        | cons p ps =>
          intro hw
          simp [consHead] at hw
          rcases hw with h | h
          · rw [h]; simp
          · exact mem_pySplit_ne_nil rest w (by rw [hps]; exact List.mem_cons_of_mem p h)
      · rw [pySplit_cons_new hc' (by simpa using hr)]
        intro hw
        rcases List.mem_cons.mp hw with h | h
        · rw [h]; simp
        · exact mem_pySplit_ne_nil rest w h

theorem mem_pySplit_nonWS : ∀ (l : List Char) (w : List Char), w ∈ pySplit l →
    w.all (fun c => !isWS c)
  | [], w => by simp [pySplit]
  | c :: rest, w => by
    by_cases hc : isWS c
    · rw [pySplit_cons_ws c rest hc]
      exact mem_pySplit_nonWS rest w
    · have hc' : isWS c = false := by simpa using hc
      by_cases hr : headNonWS rest
      · rw [pySplit_cons_word hc' hr]
        cases hps : pySplit rest with
        | nil => exact absurd hps (pySplit_ne_nil hr)
        | cons p ps =>
          intro hw
          simp [consHead] at hw
          rcases hw with h | h
          · have hp : p.all (fun c => !isWS c) :=
              mem_pySplit_nonWS rest p (by rw [hps]; exact List.mem_cons_self p ps)
            rw [h]
            simp [hc', hp]
          · exact mem_pySplit_nonWS rest w (by rw [hps]; exact List.mem_cons_of_mem p h)
      · rw [pySplit_cons_new hc' (by simpa using hr)]
        intro hw
        rcases List.mem_cons.mp hw with h | h
        · rw [h]; simp [hc']
        · exact mem_pySplit_nonWS rest w h

theorem pySplit_word : ∀ (w : List Char), w ≠ [] → w.all (fun c => !isWS c) →
    pySplit w = [w]
  | [], h, _ => absurd rfl h
  | [c], _, h2 => by
    have hc : isWS c = false := by simpa using h2
    rw [pySplit_cons_new hc (by simp [headNonWS])]
    rfl
  | c :: d :: w', _, h2 => by
    have hc : isWS c = false := by
      have := h2
      simp [List.all_cons] at this
      simpa using this.1
    have hd : isWS d = false := by
      have := h2
      simp [List.all_cons] at this
      simpa using this.2.1
    have htail : (d :: w').all (fun c => !isWS c) := by
      have := h2
      simp [List.all_cons] at this ⊢
      exact ⟨this.2.1, this.2.2⟩
    rw [pySplit_cons_word hc (by simp [headNonWS, hd]),
      pySplit_word (d :: w') (by simp) htail]
    rfl

theorem flatten_map_singleton : ∀ (W : List (List Char)),
    (W.map (fun w => [w])).flatten = W
  | [] => rfl
  | w :: ws => by simp [flatten_map_singleton ws]

theorem pySplit_joinSp_words (W : List (List Char))
    (h : ∀ w ∈ W, w ≠ [] ∧ w.all (fun c => !isWS c)) : pySplit (joinSp W) = W := by
  rw [pySplit_joinSp]
  have : W.map pySplit = W.map (fun w => [w]) :=
    List.map_congr_left (fun w hw => pySplit_word w (h w hw).1 (h w hw).2)
  rw [this, flatten_map_singleton]

theorem joinSp_ne_nil : ∀ (P : List (List Char)), (∀ w ∈ P, w ≠ []) → P ≠ [] →
    joinSp P ≠ []
  | [], _, hP => absurd rfl hP
  | [s], h, _ => by simpa [joinSp] using h s (by simp)
  | s :: t :: r, _, _ => by
    rw [joinSp]
    rcases s with _ | ⟨c, s'⟩ <;> simp

/-! ### Facts about trimming -/

theorem dropTrailWS_eq_nil_iff : ∀ (l : List Char), dropTrailWS l = [] ↔ l.all isWS
  | [] => by simp [dropTrailWS]
  | c :: rest => by
    rw [dropTrailWS]
    cases h : dropTrailWS rest with
    | nil =>
      have hrest : rest.all isWS := (dropTrailWS_eq_nil_iff rest).mp h
      by_cases hc : isWS c <;> simp [hc, hrest]
    | cons r rs =>
      have hrest : ¬rest.all isWS := by
        intro hall
        rw [(dropTrailWS_eq_nil_iff rest).mpr hall] at h
        exact List.noConfusion h
      simp [hrest]

theorem dropTrailWS_append {x : List Char} (h : dropTrailWS x ≠ []) :
    ∀ (a : List Char), dropTrailWS (a ++ x) = a ++ dropTrailWS x
  | [] => by simp
  | c :: a' => by
    rw [List.cons_append, dropTrailWS, dropTrailWS_append h a']
    cases hx : dropTrailWS x with
    | nil => exact absurd hx h
    | cons r rs =>
      cases a' with
      | nil => simp
      | cons e a'' => simp

theorem dropTrailWS_of_all_nonWS : ∀ (l : List Char),
    l.all (fun c => !isWS c) → dropTrailWS l = l
  | [], _ => rfl
  | c :: rest, h => by
    have hc : isWS c = false := by
      simp [List.all_cons] at h
      simpa using h.1
    have hrest : rest.all (fun c => !isWS c) := by
      simp [List.all_cons] at h
      simpa using h.2
    rw [dropTrailWS, dropTrailWS_of_all_nonWS rest hrest]
    cases rest with
    | nil => simp [hc]
    | cons r rs => simp

theorem dropTrailWS_head {d : Char} {l₂ : List Char} (h : dropTrailWS (d :: l₂) ≠ []) :
    ∃ y, dropTrailWS (d :: l₂) = d :: y := by
  rw [dropTrailWS] at h ⊢
  cases hx : dropTrailWS l₂ with
  | nil =>
    simp only [hx] at h ⊢
    by_cases hd : isWS d
    · simp [hd] at h
    · exact ⟨[], by simp [hd]⟩
  | cons r rs =>
    simp only [hx]
    exact ⟨r :: rs, rfl⟩

theorem dropTrailWS_idem : ∀ (l : List Char),
    dropTrailWS (dropTrailWS l) = dropTrailWS l
  | [] => rfl
  | c :: rest => by
    rw [dropTrailWS]
    cases h : dropTrailWS rest with
    | nil =>
      by_cases hc : isWS c <;> simp [hc, dropTrailWS]
    | cons r rs =>
      have : dropTrailWS (dropTrailWS rest) = dropTrailWS rest := dropTrailWS_idem rest
      rw [dropTrailWS, ← h, this, h]

theorem strip_cons_ws {c : Char} (l : List Char) (h : isWS c = true) :
    strip (c :: l) = strip l := by
  simp [strip, List.dropWhile_cons_of_pos, h]

theorem strip_append_ws {a : List Char} (l : List Char) (h : a.all isWS) :
    strip (a ++ l) = strip l := by
  induction a with
  | nil => simp
  | cons c a' ih =>
    rw [List.all_cons, Bool.and_eq_true] at h
    rw [List.cons_append, strip_cons_ws _ h.1, ih h.2]

theorem all_isWS_dropWhile_iff : ∀ (l : List Char),
    (l.dropWhile isWS).all isWS ↔ l.all isWS
  | [] => by simp
  | c :: rest => by
    by_cases hc : isWS c
    · rw [List.dropWhile_cons_of_pos hc]
      simp [hc, all_isWS_dropWhile_iff rest]
    · rw [List.dropWhile_cons_of_neg hc]

theorem strip_eq_nil_iff (l : List Char) : strip l = [] ↔ l.all isWS := by
  rw [strip, dropTrailWS_eq_nil_iff, all_isWS_dropWhile_iff]

theorem pySplit_cons_congr (c d : Char) {y z : List Char}
    (h : pySplit (d :: y) = pySplit (d :: z)) :
    pySplit (c :: d :: y) = pySplit (c :: d :: z) := by
  by_cases hc : isWS c
  · rw [pySplit_cons_ws c _ hc, pySplit_cons_ws c _ hc, h]
  · have hc' : isWS c = false := by simpa using hc
    by_cases hd : isWS d
    · have hh : headNonWS (d :: y) = false := by simp [headNonWS, hd]
      have hh' : headNonWS (d :: z) = false := by simp [headNonWS, hd]
      rw [pySplit_cons_new hc' hh, pySplit_cons_new hc' hh', h]
    · have hh : headNonWS (d :: y) = true := by simp [headNonWS, hd]
      have hh' : headNonWS (d :: z) = true := by simp [headNonWS, hd]
      rw [pySplit_cons_word hc' hh, pySplit_cons_word hc' hh', h]

theorem headNonWS_false_of_all_isWS {l : List Char} (h : l.all isWS) :
    headNonWS l = false := by
  cases l with
  | nil => rfl
  | cons c rest =>
    simp [List.all_cons] at h
    simp [headNonWS, h.1]

theorem pySplit_dropTrailWS : ∀ (l : List Char),
    pySplit (dropTrailWS l) = pySplit l
  | [] => rfl
  | c :: rest => by
    rw [dropTrailWS]
    cases h : dropTrailWS rest with
    | nil =>
      have hrest : rest.all isWS := (dropTrailWS_eq_nil_iff rest).mp h
      have hps : pySplit rest = [] := (pySplit_eq_nil_iff rest).mpr hrest
      by_cases hc : isWS c
      · rw [if_pos hc, pySplit_cons_ws c rest hc, hps]
        rfl
      · have hc' : isWS c = false := by simpa using hc
        rw [if_neg hc,
          pySplit_cons_new hc' (headNonWS_false_of_all_isWS hrest), hps,
          pySplit_cons_new hc' (by simp [headNonWS])]
        rfl
    | cons r rs =>
      cases rest with
      | nil => simp [dropTrailWS] at h
      | cons d rest₂ =>
        obtain ⟨y, hy⟩ := dropTrailWS_head (show dropTrailWS (d :: rest₂) ≠ [] by rw [h]; simp)
        have hIH : pySplit (dropTrailWS (d :: rest₂)) = pySplit (d :: rest₂) :=
          pySplit_dropTrailWS (d :: rest₂)
        rw [hy] at hIH
        rw [← h, hy]
        exact pySplit_cons_congr c d hIH

theorem pySplit_strip (l : List Char) : pySplit (strip l) = pySplit l := by
  rw [strip, pySplit_dropTrailWS, pySplit_dropWhile]

theorem dropWhile_head_nonWS : ∀ (l : List Char) {c : Char} {rest : List Char},
    l.dropWhile isWS = c :: rest → isWS c = false
  | [], c, rest => by simp
  | d :: l₂, c, rest => by
    by_cases hd : isWS d
    · rw [List.dropWhile_cons_of_pos hd]
      exact dropWhile_head_nonWS l₂
    · rw [List.dropWhile_cons_of_neg hd]
      intro h
      rw [← (List.cons.injEq ..).mp h |>.1]
      simpa using hd

theorem strip_head_nonWS (l : List Char) :
    strip l = [] ∨ headNonWS (strip l) = true := by
  rw [strip]
  cases hd : l.dropWhile isWS with
  | nil => left; rfl
  | cons c rest =>
    cases h2 : dropTrailWS (c :: rest) with
    | nil => left; rfl
    | cons e y =>
      obtain ⟨y', hy'⟩ := dropTrailWS_head (show dropTrailWS (c :: rest) ≠ [] by rw [h2]; simp)
      rw [h2] at hy'
      injection hy' with he hy2
      right
      rw [he]
      simp [headNonWS, dropWhile_head_nonWS l hd]

theorem strip_idem (l : List Char) : strip (strip l) = strip l := by
  have h1 : (strip l).dropWhile isWS = strip l := by
    rcases strip_head_nonWS l with h | h
    · rw [h]; rfl
    · cases hs : strip l with
      | nil => rfl
      | cons c rest =>
        rw [hs] at h
        simp [headNonWS] at h
        rw [List.dropWhile_cons_of_neg (by simp [h])]
  conv_lhs => rw [strip, h1]
  rw [strip, dropTrailWS_idem]

/-! ### Facts about the greedy word-budget loops -/

namespace helpers

theorem takeBudgetFallback_eq (w : Nat) : ∀ (l : List (List Char)) (wc : Nat),
    takeBudgetFallback w l wc = takeBudgetRank w l wc
  | [], _ => rfl
  | s :: rest, wc => by
    rw [takeBudgetFallback, takeBudgetRank, takeBudgetFallback_eq w rest]

theorem takeBudgetRank_sum (w : Nat) : ∀ (l : List (List Char)) (wc : Nat), wc ≤ w →
    wc + ((takeBudgetRank w l wc).map wordCount).sum ≤ w
  | [], wc, h => by simpa [takeBudgetRank]
  | s :: rest, wc, h => by
    rw [takeBudgetRank]
    by_cases hcond : w < wc + wordCount s
    · simpa [hcond]
    · have h2 : wc + wordCount s ≤ w := Nat.le_of_not_lt hcond
      have h3 := takeBudgetRank_sum w rest (wc + wordCount s) h2
      simp only [hcond, if_false, List.map_cons, List.sum_cons]
      omega

theorem takeBudgetRank_take (w : Nat) : ∀ (l : List (List Char)) (wc : Nat),
    ∃ n, takeBudgetRank w l wc = l.take n
  | [], _ => ⟨0, rfl⟩
  | s :: rest, wc => by
    rw [takeBudgetRank]
    by_cases hcond : w < wc + wordCount s
    · exact ⟨0, by simp [hcond]⟩
    · obtain ⟨n, hn⟩ := takeBudgetRank_take w rest (wc + wordCount s)
      exact ⟨n + 1, by simp [hcond, hn]⟩

end helpers

theorem wordCount_joinSp (L : List (List Char)) :
    wordCount (joinSp L) = (L.map wordCount).sum := by
  rw [wordCount, pySplit_joinSp, List.length_flatten]
  congr 1
  rw [List.map_map]
  rfl

/-! ### Claim theorems about the bounded summarizer -/

/-- Claim C1: for every ranking outcome, input text and word budget, the
string returned by the bounded summarizer `summarize_lexrank` has total
word count at most the budget, on both the ranking path (`some ranked`)
and the fallback path (`none`). -/
theorem claim1_word_budget (rankResult : Option (List (List Char)))
    (text : List Char) (w : Nat) :
    wordCount (helpers.summarize_lexrank rankResult text w) ≤ w := by
  cases rankResult with
  | some ranked =>
    simp only [helpers.summarize_lexrank]
    rw [wordCount_joinSp]
    have h := helpers.takeBudgetRank_sum w ranked 0 (Nat.zero_le w)
    omega
  | none =>
    simp only [helpers.summarize_lexrank]
    rw [helpers.takeBudgetFallback_eq, wordCount_joinSp]
    have h := helpers.takeBudgetRank_sum w (splitSentences text) 0 (Nat.zero_le w)
    omega

/-- Claim C4: on the ranking (non-fallback) path the summary returned by
`summarize_lexrank` is the single-space join of a prefix of the ranked
sentence list: the appended sentences appear joined with a single space
in the ranker's priority order (rank order), not rearranged into
original document order. -/
theorem claim4_rank_order (ranked : List (List Char)) (text : List Char) (w : Nat) :
    (∃ n, helpers.takeBudgetRank w ranked 0 = ranked.take n) ∧
      helpers.summarize_lexrank (some ranked) text w =
        joinSp (helpers.takeBudgetRank w ranked 0) :=
  ⟨helpers.takeBudgetRank_take w ranked 0, rfl⟩

/-- Claim C5: the embedded `summarize_lexrank` is a total function (the
`except` clause catches every ranking exception), and on a ranking
failure it returns exactly the greedy word-budget accumulation — the
same loop as the ranking path, `takeBudgetRank` — applied to the
sentences of the input text in original document order. -/
theorem claim5_fallback (text : List Char) (w : Nat) :
    helpers.summarize_lexrank none text w =
      joinSp (helpers.takeBudgetRank w (splitSentences text) 0) := by
  simp only [helpers.summarize_lexrank, helpers.takeBudgetFallback_eq]

/-- Claim C7: if every candidate sentence has more words than the budget
`w` (equivalently, if the single shortest candidate does), then
`summarize_lexrank` returns the empty string, on the ranking path and
on the fallback path alike; no partial sentence is ever emitted. -/
theorem claim7_oversized_sentences (ranked : List (List Char))
    (text : List Char) (w : Nat) :
    ((∀ s ∈ ranked, w < wordCount s) →
        helpers.summarize_lexrank (some ranked) text w = []) ∧
      ((∀ s ∈ splitSentences text, w < wordCount s) →
        helpers.summarize_lexrank none text w = []) := by
  constructor
  · intro h
    cases ranked with
    | nil => rfl
    | cons s rest =>
      have hs := h s (List.mem_cons_self s rest)
      simp only [helpers.summarize_lexrank, helpers.takeBudgetRank]
      rw [if_pos (by omega)]
      rfl
  · intro h
    simp only [helpers.summarize_lexrank]
    cases hss : splitSentences text with
    | nil => rfl
    | cons s rest =>
      have hs := h s (by rw [hss]; exact List.mem_cons_self s rest)
      simp only [helpers.takeBudgetFallback]
      rw [if_pos (by omega)]
      rfl

/-- Witness for claim C7 at a concrete input: with budget 0, a ranked list
whose only sentence is "ab" and a text "c d" whose only sentence has two
words, both paths return the empty string. -/
theorem claim7_witness :
    helpers.summarize_lexrank (some [['a', 'b']]) [] 0 = [] ∧
      helpers.summarize_lexrank none ['c', ' ', 'd'] 0 = [] :=
  ⟨(claim7_oversized_sentences [['a', 'b']] [] 0).1 (by decide),
   (claim7_oversized_sentences [['a', 'b']] ['c', ' ', 'd'] 0).2 (by decide)⟩

/-! ### Facts about the sentence splitter -/

theorem punct_not_ws {c : Char} (h : isPunct c = true) : isWS c = false := by
  simp [isPunct] at h
  rcases h with (h | h) | h <;> subst h <;> decide

theorem ws_not_punct {c : Char} (h : isWS c = true) : isPunct c = false := by
  simp [isWS] at h
  rcases h with ((((h | h) | h) | h) | h) | h <;> subst h <;> decide

theorem length_dropWhile_isWS_le (l : List Char) :
    (l.dropWhile isWS).length ≤ l.length := by
  induction l with
  | nil => simp
  | cons c rest ih =>
    by_cases h : isWS c
    · rw [List.dropWhile_cons_of_pos h]
      simp only [List.length_cons]
      omega
    · rw [List.dropWhile_cons_of_neg h]

theorem ssAux_ne_nil : ∀ (t : List Char) (m : Bool), ssAux t m ≠ []
  | [], _ => by simp [ssAux]
  | c :: rest, m => by
    rw [ssAux]
    split
    · exact ssAux_ne_nil rest true
    · split
      · simp
      · exact consHead_ne_nil c _

theorem joinSp_ssAux_head (d : Char) (rest : List Char) :
    ∃ y, joinSp (ssAux (d :: rest) false) = d :: y := by
  rw [ssAux]
  simp only [Bool.false_and, Bool.false_eq_true, if_false]
  by_cases h : (isPunct d && startsWS rest) = true
  · rw [if_pos h, joinSp_cons [d] (ssAux_ne_nil rest true)]
    exact ⟨' ' :: joinSp (ssAux rest true), by simp⟩
  · rw [if_neg h, joinSp_consHead d (ssAux_ne_nil rest false)]
    exact ⟨joinSp (ssAux rest false), rfl⟩

theorem pySplit_joinSp_ssAux : ∀ (t : List Char) (m : Bool),
    pySplit (joinSp (ssAux t m)) = pySplit t
  | [], m => by simp [ssAux, joinSp, pySplit]
  | c :: rest, m => by
    rw [ssAux]
    by_cases h1 : (m && isWS c) = true
    · rw [if_pos h1]
      have hc : isWS c = true := (Bool.and_eq_true _ _ |>.mp h1).2
      rw [pySplit_joinSp_ssAux rest true, pySplit_cons_ws c rest hc]
    · rw [if_neg h1]
      by_cases h2 : (isPunct c && startsWS rest) = true
      · rw [if_pos h2]
        obtain ⟨hp, hw⟩ := Bool.and_eq_true _ _ |>.mp h2
        have hcnw : isWS c = false := punct_not_ws hp
        rw [joinSp_cons [c] (ssAux_ne_nil rest true)]
        rw [show ([c] ++ ' ' :: joinSp (ssAux rest true)) =
          [c] ++ ' ' :: joinSp (ssAux rest true) from rfl]
        rw [pySplit_append_space [c] _, pySplit_joinSp_ssAux rest true]
        have hrw : headNonWS rest = false := by
          cases rest with
          | nil => rfl
          | cons e r =>
            have : isWS e = true := by simpa [startsWS] using hw
            simp [headNonWS, this]
        rw [pySplit_cons_new hcnw hrw,
          pySplit_cons_new hcnw (by simp [headNonWS])]
        rfl
      · rw [if_neg h2]
        cases rest with
        | nil => simp [ssAux, consHead, joinSp, pySplit]
        | cons d r =>
          rw [joinSp_consHead c (ssAux_ne_nil (d :: r) false)]
          obtain ⟨y, hy⟩ := joinSp_ssAux_head d r
          rw [hy]
          have hIH : pySplit (d :: y) = pySplit (d :: r) := by
            have := pySplit_joinSp_ssAux (d :: r) false
            rwa [hy] at this
          exact pySplit_cons_congr c d hIH

theorem ssAux_all_ws : ∀ (t : List Char), t.all isWS → ssAux t false = [t]
  | [], _ => rfl
  | c :: rest, h => by
    rw [List.all_cons, Bool.and_eq_true] at h
    rw [ssAux]
    have hp : isPunct c = false := ws_not_punct h.1
    simp only [Bool.false_and, Bool.false_eq_true, if_false, hp]
    rw [ssAux_all_ws rest h.2]
    rfl

theorem splitSentences_all_ws (t : List Char) (h : t.all isWS) :
    splitSentences t = [t] :=
  ssAux_all_ws t h

theorem mem_ssAux_length : ∀ (t : List Char) (m : Bool) (s : List Char),
    s ∈ ssAux t m → s.length ≤ t.length
  | [], _, s => by
    intro h
    simp [ssAux] at h
    simp [h]
  | c :: rest, m, s => by
    intro h
    rw [ssAux] at h
    by_cases h1 : (m && isWS c) = true
    · rw [if_pos h1] at h
      have := mem_ssAux_length rest true s h
      simp only [List.length_cons]
      omega
    · rw [if_neg h1] at h
      by_cases h2 : (isPunct c && startsWS rest) = true
      · rw [if_pos h2] at h
        rcases List.mem_cons.mp h with h3 | h3
        · rw [h3]
          simp only [List.length_cons, List.length_nil]
          omega
        · have := mem_ssAux_length rest true s h3
          simp only [List.length_cons]
          omega
      · rw [if_neg h2] at h
        cases hG : ssAux rest false with
        | nil => exact absurd hG (ssAux_ne_nil rest false)
        | cons p ps =>
          rw [hG] at h
          simp only [consHead] at h
          rcases List.mem_cons.mp h with h3 | h3
          · have hp : p.length ≤ rest.length :=
              mem_ssAux_length rest false p (by rw [hG]; exact List.mem_cons_self p ps)
            rw [h3]
            simp only [List.length_cons]
            omega
          · have := mem_ssAux_length rest false s
              (by rw [hG]; exact List.mem_cons_of_mem p h3)
            simp only [List.length_cons]
            omega

/-! ### Whitespace collapsing and the canonical form of `clean_text` -/

theorem collapseWS_cons_nonws (c : Char) (rest : List Char) (h : isWS c = false) :
    collapseWS (c :: rest) = c :: collapseWS rest := by
  cases rest with
  | nil => simp [collapseWS, h]
  | cons d r => simp [collapseWS, h]

theorem collapseWS_cons_ws (c : Char) (rest : List Char) (h : isWS c = true) :
    collapseWS (c :: rest) =
      if startsWS rest = true then collapseWS rest else ' ' :: collapseWS rest := by
  cases rest with
  | nil => simp [collapseWS, h, startsWS]
  | cons d r =>
    by_cases hd : isWS d
    · simp [collapseWS, h, hd, startsWS]
    · simp [collapseWS, h, hd, startsWS]

theorem collapseWS_run : ∀ (r : List Char), startsWS r = true →
    collapseWS r = ' ' :: collapseWS (r.dropWhile isWS)
  | [], h => by simp [startsWS] at h
  | d :: r₂, h => by
    have hd : isWS d = true := by simpa [startsWS] using h
    rw [collapseWS_cons_ws d r₂ hd, List.dropWhile_cons_of_pos hd]
    by_cases h2 : startsWS r₂ = true
    · rw [if_pos h2, collapseWS_run r₂ h2]
    · rw [if_neg h2]
      cases r₂ with
      | nil => rfl
      | cons e r₃ =>
        have he : isWS e = false := by
          cases hx : isWS e
          · rfl
          · exact absurd (by simp [startsWS, hx]) h2
        rw [List.dropWhile_cons_of_neg (by simp [he])]

theorem dropTrailWS_cons_of_ne (c : Char) {x : List Char} (h : dropTrailWS x ≠ []) :
    dropTrailWS (c :: x) = c :: dropTrailWS x := by
  rw [dropTrailWS]
  cases hx : dropTrailWS x with
  | nil => exact absurd hx h
  | cons r rs => rfl

theorem strip_of_head_nonws {c : Char} (x : List Char) (h : isWS c = false) :
    strip (c :: x) = dropTrailWS (c :: x) := by
  rw [strip, List.dropWhile_cons_of_neg (by simp [h])]

theorem strip_collapseWS (t : List Char) :
    strip (collapseWS t) = joinSp (pySplit t) := by
  generalize hn : t.length = n
  induction n using Nat.strong_induction_on generalizing t with
  | _ n IH =>
    have IH' : ∀ t' : List Char, t'.length < t.length →
        strip (collapseWS t') = joinSp (pySplit t') :=
      fun t' h => IH t'.length (by omega) t' rfl
    cases t with
    | nil => rfl
    | cons c rest =>
      by_cases hc : isWS c = true
      · rw [collapseWS_cons_ws c rest hc, pySplit_cons_ws c rest hc]
        by_cases h2 : startsWS rest = true
        · rw [if_pos h2]
          exact IH' rest (by simp)
        · rw [if_neg h2, strip_cons_ws _ (by decide)]
          exact IH' rest (by simp)
      · have hc' : isWS c = false := by simpa using hc
        rw [collapseWS_cons_nonws c rest hc']
        by_cases hr : headNonWS rest = true
        · rw [pySplit_cons_word hc' hr]
          cases rest with
          | nil => simp [headNonWS] at hr
          | cons d r₂ =>
            have hd : isWS d = false := by simpa [headNonWS] using hr
            have hIH : dropTrailWS (d :: collapseWS r₂) = joinSp (pySplit (d :: r₂)) := by
              have h0 := IH' (d :: r₂) (by simp)
              rwa [collapseWS_cons_nonws d r₂ hd, strip_of_head_nonws _ hd] at h0
            have hne3 : pySplit (d :: r₂) ≠ [] :=
              pySplit_ne_nil (by simp [headNonWS, hd])
            have hne : dropTrailWS (d :: collapseWS r₂) ≠ [] := by
              rw [hIH]
              exact joinSp_ne_nil _ (fun w hw => mem_pySplit_ne_nil (d :: r₂) w hw) hne3
            rw [collapseWS_cons_nonws d r₂ hd, strip_of_head_nonws _ hc',
              dropTrailWS_cons_of_ne c hne, hIH, joinSp_consHead c hne3]
        · rw [pySplit_cons_new hc' (by simpa using hr)]
          cases rest with
          | nil =>
            rw [strip_of_head_nonws _ hc']
            simp [collapseWS, dropTrailWS, hc', joinSp, pySplit]
          | cons d r₂ =>
            have hd : isWS d = true := by
              cases hx : isWS d
              · exact absurd (by simp [headNonWS, hx]) hr
              · rfl
            rw [collapseWS_run (d :: r₂) (by simp [startsWS, hd]),
              strip_of_head_nonws _ hc']
            have hpz : pySplit ((d :: r₂).dropWhile isWS) = pySplit (d :: r₂) :=
              pySplit_dropWhile (d :: r₂)
            cases hzz : (d :: r₂).dropWhile isWS with
            | nil =>
              have hpempty : pySplit (d :: r₂) = [] := by rw [← hpz, hzz]; rfl
              rw [hpempty]
              simp [collapseWS, dropTrailWS, hc', joinSp,
                show isWS ' ' = true from by decide]
            | cons e z₂ =>
              have he : isWS e = false := dropWhile_head_nonWS (d :: r₂) hzz
              have hlen : (e :: z₂).length < (c :: d :: r₂).length := by
                have h1 : ((d :: r₂).dropWhile isWS).length ≤ (d :: r₂).length :=
                  length_dropWhile_isWS_le (d :: r₂)
                rw [hzz] at h1
                simp only [List.length_cons] at h1 ⊢
                omega
              have hIH : dropTrailWS (e :: collapseWS z₂) = joinSp (pySplit (e :: z₂)) := by
                have h0 := IH' (e :: z₂) hlen
                rwa [collapseWS_cons_nonws e z₂ he, strip_of_head_nonws _ he] at h0
              have hne3 : pySplit (e :: z₂) ≠ [] :=
                pySplit_ne_nil (by simp [headNonWS, he])
              have hne2 : dropTrailWS (e :: collapseWS z₂) ≠ [] := by
                rw [hIH]
                exact joinSp_ne_nil _ (fun w hw => mem_pySplit_ne_nil (e :: z₂) w hw) hne3
              have hne1 : dropTrailWS (' ' :: e :: collapseWS z₂) ≠ [] := by
                rw [dropTrailWS_cons_of_ne ' ' hne2]
                simp
              have hpe : pySplit (e :: z₂) = pySplit (d :: r₂) := by
                rw [← hzz]
                exact hpz
              rw [collapseWS_cons_nonws e z₂ he,
                dropTrailWS_cons_of_ne c hne1, dropTrailWS_cons_of_ne ' ' hne2, hIH, hpe,
                joinSp_cons [c] (by rw [← hpe]; exact hne3)]
              rfl

theorem clean_text_eq (t : List Char) :
    helpers.clean_text t = joinSp (pySplit t) :=
  strip_collapseWS t

/-! ### Claim theorems about clean_text -/

theorem strip_all_nonws (w : List Char) (h : w.all (fun c => !isWS c)) :
    strip w = w := by
  cases w with
  | nil => rfl
  | cons c w' =>
    have hc : isWS c = false := by
      rw [List.all_cons, Bool.and_eq_true] at h
      simpa using h.1
    rw [strip_of_head_nonws _ hc]
    exact dropTrailWS_of_all_nonWS (c :: w') h

theorem strip_joinSp_words : ∀ (W : List (List Char)),
    (∀ w ∈ W, w ≠ [] ∧ w.all (fun c => !isWS c)) → strip (joinSp W) = joinSp W
  | [], _ => rfl
  | [w], h => strip_all_nonws w (h w (by simp)).2
  | w :: v :: r, h => by
    obtain ⟨hw1, hw2⟩ := h w (by simp)
    have hm : ∀ x ∈ v :: r, x ≠ [] ∧ x.all (fun c => !isWS c) :=
      fun x hx => h x (List.mem_cons_of_mem _ hx)
    have hu_ne : joinSp (v :: r) ≠ [] :=
      joinSp_ne_nil _ (fun x hx => (hm x hx).1) (by simp)
    have hu : strip (joinSp (v :: r)) = joinSp (v :: r) :=
      strip_joinSp_words (v :: r) hm
    obtain ⟨hv1, hv2⟩ := hm v (by simp)
    have hdTu : dropTrailWS (joinSp (v :: r)) = joinSp (v :: r) := by
      cases v with
      | nil => exact absurd rfl hv1
      | cons cv v' =>
        have hcv : isWS cv = false := by
          rw [List.all_cons, Bool.and_eq_true] at hv2
          simpa using hv2.1
        have hju : ∃ y, joinSp ((cv :: v') :: r) = cv :: y := by
          cases r with
          | nil => exact ⟨v', rfl⟩
          | cons q qs => exact ⟨v' ++ ' ' :: joinSp (q :: qs), rfl⟩
        obtain ⟨y, hy⟩ := hju
        rw [hy] at hu ⊢
        rw [strip_of_head_nonws _ hcv] at hu
        exact hu
    have hsp : dropTrailWS (' ' :: joinSp (v :: r)) = ' ' :: joinSp (v :: r) := by
      rw [dropTrailWS_cons_of_ne ' ' (by rw [hdTu]; exact hu_ne), hdTu]
    cases w with
    | nil => exact absurd rfl hw1
    | cons cw w' =>
      have hcw : isWS cw = false := by
        rw [List.all_cons, Bool.and_eq_true] at hw2
        simpa using hw2.1
      rw [joinSp_cons _ (by simp), List.cons_append, strip_of_head_nonws _ hcw,
        ← List.cons_append, dropTrailWS_append (by rw [hsp]; simp) (cw :: w'), hsp]

theorem noTwoWS_all_nonws : ∀ (w : List Char),
    w.all (fun c => !isWS c) → noTwoWS w = true
  | [], _ => rfl
  | [_], _ => rfl
  | c :: d :: w', h => by
    rw [List.all_cons, Bool.and_eq_true] at h
    have hc : isWS c = false := by simpa using h.1
    have htail : noTwoWS (d :: w') = true := noTwoWS_all_nonws (d :: w') h.2
    rw [noTwoWS, htail, hc]
    simp

theorem noTwoWS_append_word : ∀ (w : List Char), w.all (fun c => !isWS c) →
    ∀ (u : List Char), noTwoWS u = true → headNonWS u = true →
    noTwoWS (w ++ ' ' :: u) = true
  | [], _, u, hu, hh => by
    cases u with
    | nil => simp [headNonWS] at hh
    | cons e u' =>
      have he : isWS e = false := by simpa [headNonWS] using hh
      rw [List.nil_append, noTwoWS, hu, he]
      decide
  | c :: w', h, u, hu, hh => by
    rw [List.all_cons, Bool.and_eq_true] at h
    have hc : isWS c = false := by simpa using h.1
    have htail : noTwoWS (w' ++ ' ' :: u) = true :=
      noTwoWS_append_word w' h.2 u hu hh
    cases w' with
    | nil =>
      rw [List.cons_append, List.nil_append]
      rw [List.nil_append] at htail
      rw [noTwoWS, htail, hc]
      decide
    | cons c2 w'' =>
      have hc2 : isWS c2 = false := by
        have := h.2
        rw [List.all_cons, Bool.and_eq_true] at this
        simpa using this.1
      rw [List.cons_append]
      show ((!(isWS c && isWS c2)) && noTwoWS ((c2 :: w'') ++ ' ' :: u)) = true
      rw [htail, hc]
      simp

theorem noTwoWS_joinSp_words : ∀ (W : List (List Char)),
    (∀ w ∈ W, w ≠ [] ∧ w.all (fun c => !isWS c)) → noTwoWS (joinSp W) = true
  | [], _ => rfl
  | [w], h => noTwoWS_all_nonws w (h w (by simp)).2
  | w :: v :: r, h => by
    obtain ⟨hw1, hw2⟩ := h w (by simp)
    have hm : ∀ x ∈ v :: r, x ≠ [] ∧ x.all (fun c => !isWS c) :=
      fun x hx => h x (List.mem_cons_of_mem _ hx)
    have hu : noTwoWS (joinSp (v :: r)) = true := noTwoWS_joinSp_words (v :: r) hm
    obtain ⟨hv1, hv2⟩ := hm v (by simp)
    have hh : headNonWS (joinSp (v :: r)) = true := by
      cases v with
      | nil => exact absurd rfl hv1
      | cons cv v' =>
        have hcv : isWS cv = false := by
          rw [List.all_cons, Bool.and_eq_true] at hv2
          simpa using hv2.1
        have hju : ∃ y, joinSp ((cv :: v') :: r) = cv :: y := by
          cases r with
          | nil => exact ⟨v', rfl⟩
          | cons q qs => exact ⟨v' ++ ' ' :: joinSp (q :: qs), rfl⟩
        obtain ⟨y, hy⟩ := hju
        rw [hy]
        simp [headNonWS, hcv]
    rw [joinSp_cons _ (by simp)]
    exact noTwoWS_append_word w hw2 (joinSp (v :: r)) hu hh

/-- Claim C10: `clean_text` is idempotent, and its output contains no run
of two or more whitespace characters and no leading or trailing
whitespace (it is a fixed point of `strip`). -/
theorem claim10_clean_text (t : List Char) :
    helpers.clean_text (helpers.clean_text t) = helpers.clean_text t ∧
      noTwoWS (helpers.clean_text t) = true ∧
      strip (helpers.clean_text t) = helpers.clean_text t := by
  have hgood : ∀ w ∈ pySplit t, w ≠ [] ∧ w.all (fun c => !isWS c) :=
    fun w hw => ⟨mem_pySplit_ne_nil t w hw, mem_pySplit_nonWS t w hw⟩
  refine ⟨?_, ?_, ?_⟩
  · rw [clean_text_eq t, clean_text_eq (joinSp (pySplit t)),
      pySplit_joinSp_words (pySplit t) hgood]
  · rw [clean_text_eq t]
    exact noTwoWS_joinSp_words (pySplit t) hgood
  · rw [clean_text_eq t]
    exact strip_joinSp_words (pySplit t) hgood

/-! ### Claim theorems about the bullet digest -/

/-- Counterexample to claim C2 as stated: with the summary-length slider
at its default value 6 and a consolidated summary of six sentences, the
bullet digest has 6 entries — the source caps the digest at
`max(5, max_sentences)` entries, not at 5. -/
theorem claim2_counterexample :
    (app.bullets "A. B. C. D. E. F.".toList 6).length = 6 ∧
      ¬((app.bullets "A. B. C. D. E. F.".toList 6).length ≤ 5) := by
  constructor
  · decide
  · decide

/-- Claim C2 (amended): the bullet digest derived from a consolidated
summary has at most `max 5 maxSentences` entries — so at most 5 exactly
when the configured summary-length setting is at most 5 — and every
entry is a trimmed non-empty string. -/
theorem claim2_bullets (overall : List Char) (maxSentences : Nat) :
    (app.bullets overall maxSentences).length ≤ max 5 maxSentences ∧
      ∀ b ∈ app.bullets overall maxSentences, b ≠ [] ∧ strip b = b := by
  constructor
  · rw [app.bullets, List.length_take]
    exact min_le_left _ _
  · intro b hb
    rw [app.bullets] at hb
    have hb' := List.mem_of_mem_take hb
    obtain ⟨a, ha, hba⟩ := List.mem_map.mp hb'
    have hfa := List.mem_filter.mp ha
    have hne : strip a ≠ [] := by
      have h2 := hfa.2
      intro hcon
      rw [hcon] at h2
      simp at h2
    rw [← hba]
    exact ⟨hne, strip_idem a⟩

/-- Witness for claim C2 at a concrete input: the first bullet of the
counterexample digest is the trimmed non-empty sentence "A.". -/
theorem claim2_witness :
    "A.".toList ≠ [] ∧ strip "A.".toList = "A.".toList :=
  (claim2_bullets "A. B. C. D. E. F.".toList 6).2 "A.".toList (by decide)

/-! ### Claim theorems about the chunker -/

theorem chunkLoop_eq (m : Nat) : ∀ (l chunks : List (List Char)) (buf : List Char),
    app.chunkLoop m l chunks buf = helpers.chunkLoop m l chunks buf
  | [], chunks, buf => rfl
  | s :: rest, chunks, buf => by
    rw [app.chunkLoop, helpers.chunkLoop]
    by_cases h : m < buf.length + s.length + 1
    · rw [if_pos h, if_pos h, chunkLoop_eq m rest]
    · rw [if_neg h, if_neg h, chunkLoop_eq m rest]

/-- Claim C8: the two textually identical definitions of `chunk_text`, in
src/app.py and src/helpers.py, are extensionally equal: on every text and
every maxChars they return the same sequence of chunks. -/
theorem claim8_chunk_text_eq (text : List Char) (maxChars : Nat) :
    app.chunk_text text maxChars = helpers.chunk_text text maxChars := by
  rw [app.chunk_text, helpers.chunk_text]
  by_cases h : text.length ≤ maxChars
  · rw [if_pos h, if_pos h]
  · rw [if_neg h, if_neg h, chunkLoop_eq maxChars]

/-- Counterexample to claim C3 as stated: on the empty string (an empty,
hence whitespace-only, input) with the default maxChars 3000 the
short-circuit `len(text) <= max_chars` fires and `chunk_text` returns
`[""]`, a one-chunk sequence, not the empty sequence. -/
theorem claim3_counterexample :
    helpers.chunk_text [] 3000 = [[]] ∧ helpers.chunk_text [] 3000 ≠ [] := by
  constructor
  · rfl
  · intro h
    rw [show helpers.chunk_text [] 3000 = [[]] from rfl] at h
    exact List.noConfusion h

/-- Claim C3 (amended): for whitespace-only (hence also empty) input,
`chunk_text` returns the single chunk `[text]` when the text length is
at most maxChars (the short-circuit), and the empty sequence — no
chunks — only when the text is longer than maxChars. -/
theorem claim3_ws_chunks (t : List Char) (m : Nat) (h : t.all isWS) :
    (t.length ≤ m → helpers.chunk_text t m = [t]) ∧
      (m < t.length → helpers.chunk_text t m = []) := by
  constructor
  · intro hle
    rw [helpers.chunk_text, if_pos hle]
  · intro hlt
    rw [helpers.chunk_text, if_neg (by omega), splitSentences_all_ws t h,
      helpers.chunkLoop, if_pos (by simp; omega), helpers.chunkLoop]
    have hst : strip t = [] := (strip_eq_nil_iff t).mpr h
    rw [hst]
    simp [show strip ([] : List Char) = [] from rfl]

/-- Witness for claim C3 at concrete inputs: a single space is returned
as its own chunk when it fits, and yields no chunks when maxChars is 0. -/
theorem claim3_witness :
    helpers.chunk_text [' '] 1 = [[' ']] ∧ helpers.chunk_text [' '] 0 = [] :=
  ⟨(claim3_ws_chunks [' '] 1 (by decide)).1 (by decide),
   (claim3_ws_chunks [' '] 0 (by decide)).2 (by decide)⟩

theorem chunkLoop_members (m : Nat) :
    ∀ (l chunks : List (List Char)) (buf : List Char),
    (∀ c ∈ chunks, c ≠ [] ∧ strip c = c) →
    ∀ c ∈ helpers.chunkLoop m l chunks buf, c ≠ [] ∧ strip c = c
  | [], chunks, buf, hch => by
    intro c hc
    rw [helpers.chunkLoop] at hc
    by_cases hb : strip buf = []
    · rw [if_pos hb] at hc
      exact hch c (by simpa using hc)
    · rw [if_neg hb] at hc
      rcases List.mem_append.mp hc with h | h
      · exact hch c h
      · have hcb : c = strip buf := by simpa using h
        refine ⟨?_, by rw [hcb, strip_idem]⟩
        rw [hcb]
        exact hb
  | s :: rest, chunks, buf, hch => by
    intro c hc
    rw [helpers.chunkLoop] at hc
    by_cases hcond : m < buf.length + s.length + 1
    · rw [if_pos hcond] at hc
      refine chunkLoop_members m rest _ s ?_ c hc
      intro c' hc'
      by_cases hb : strip buf = []
      · rw [if_pos hb] at hc'
        exact hch c' (by simpa using hc')
      · rw [if_neg hb] at hc'
        rcases List.mem_append.mp hc' with h | h
        · exact hch c' h
        · have hcb : c' = strip buf := by simpa using h
          refine ⟨?_, by rw [hcb, strip_idem]⟩
          rw [hcb]
          exact hb
    · rw [if_neg hcond] at hc
      exact chunkLoop_members m rest chunks _ hch c hc

/-- Claim C9: when the input text is longer than maxChars, every chunk
returned by `chunk_text` is a non-empty string with no leading or
trailing whitespace (each chunk equals its own trim). -/
theorem claim9_chunks_trimmed (t : List Char) (m : Nat) (h : m < t.length) :
    ∀ c ∈ helpers.chunk_text t m, c ≠ [] ∧ strip c = c := by
  rw [helpers.chunk_text, if_neg (by omega)]
  exact chunkLoop_members m (splitSentences t) [] [] (by simp)

/-- Witness for claim C9 at a concrete input: the first chunk of
chunking "a. b" at maxChars 2 is the trimmed non-empty string "a.". -/
theorem claim9_witness :
    "a.".toList ≠ [] ∧ strip "a.".toList = "a.".toList :=
  claim9_chunks_trimmed "a. b".toList 2 (by decide) "a.".toList (by decide)

/-! ### Structure of the chunking loop -/

theorem joinSp_append_singleton : ∀ (g : List (List Char)), g ≠ [] →
    ∀ (s : List Char), joinSp (g ++ [s]) = joinSp g ++ ' ' :: s
  | [], h, _ => absurd rfl h
  | [g₁], _, s => by simp [joinSp]
  | g₁ :: g₂ :: g', _, s => by
    have IH := joinSp_append_singleton (g₂ :: g') (by simp) s
    calc joinSp ((g₁ :: g₂ :: g') ++ [s])
        = g₁ ++ ' ' :: joinSp ((g₂ :: g') ++ [s]) := rfl
      _ = g₁ ++ ' ' :: (joinSp (g₂ :: g') ++ ' ' :: s) := by rw [IH]
      _ = (g₁ ++ ' ' :: joinSp (g₂ :: g')) ++ ' ' :: s := by simp
      _ = joinSp (g₁ :: g₂ :: g') ++ ' ' :: s := rfl

theorem chunkLoop_prepend (m : Nat) :
    ∀ (l c₁ c₂ : List (List Char)) (buf : List Char),
    helpers.chunkLoop m l (c₁ ++ c₂) buf = c₁ ++ helpers.chunkLoop m l c₂ buf
  | [], c₁, c₂, buf => by
    rw [helpers.chunkLoop, helpers.chunkLoop, List.append_assoc]
  | s :: rest, c₁, c₂, buf => by
    rw [helpers.chunkLoop, helpers.chunkLoop]
    by_cases h : m < buf.length + s.length + 1
    · rw [if_pos h, if_pos h, List.append_assoc, chunkLoop_prepend m rest]
    · rw [if_neg h, if_neg h, chunkLoop_prepend m rest]

theorem chunkLoop_extract (m : Nat) (l chunks : List (List Char)) (buf : List Char) :
    helpers.chunkLoop m l chunks buf = chunks ++ helpers.chunkLoop m l [] buf := by
  have h := chunkLoop_prepend m l chunks [] buf
  simpa using h

theorem pySplit_of_strip_eq_nil {buf : List Char} (h : strip buf = []) :
    pySplit buf = [] := by
  rw [← pySplit_strip buf, h]
  rfl

theorem chunkLoop_words (m : Nat) : ∀ (l chunks : List (List Char)) (buf : List Char),
    ((helpers.chunkLoop m l chunks buf).map pySplit).flatten =
      (chunks.map pySplit).flatten ++ pySplit buf ++ (l.map pySplit).flatten
  | [], chunks, buf => by
    rw [helpers.chunkLoop]
    by_cases hb : strip buf = []
    · rw [if_pos hb]
      simp [pySplit_of_strip_eq_nil hb]
    · rw [if_neg hb]
      simp [pySplit_strip]
  | s :: rest, chunks, buf => by
    rw [helpers.chunkLoop]
    by_cases hcond : m < buf.length + s.length + 1
    · rw [if_pos hcond, chunkLoop_words m rest]
      by_cases hb : strip buf = []
      · simp [hb, pySplit_of_strip_eq_nil hb]
      · simp [hb, pySplit_strip]
    · rw [if_neg hcond, chunkLoop_words m rest]
      by_cases hbuf : buf = []
      · subst hbuf
        simp [pySplit]
      · rw [if_neg hbuf, show buf ++ [' '] ++ s = buf ++ ' ' :: s by simp,
          pySplit_append_space]
        simp

theorem pySplit_joinSp_splitSentences (t : List Char) :
    pySplit (joinSp (splitSentences t)) = pySplit t :=
  pySplit_joinSp_ssAux t false

theorem chunkLoop_grouping (m : Nat) : ∀ (l : List (List Char)) (buf : List Char)
    (g : List (List Char)) (wsp : List Char),
    wsp.all isWS = true → joinSp g = wsp ++ buf →
    ∃ gs : List (List (List Char)), gs.flatten = g ++ l ∧
      helpers.chunkLoop m l [] buf =
        (gs.map (fun gr => strip (joinSp gr))).filter (fun c => !c.isEmpty)
  | [], buf, g, wsp, hws, hjg => by
    refine ⟨[g], by simp, ?_⟩
    rw [helpers.chunkLoop]
    have hsg : strip (joinSp g) = strip buf := by rw [hjg, strip_append_ws _ hws]
    by_cases hb : strip buf = []
    · rw [if_pos hb]
      simp [hsg, hb]
    · rw [if_neg hb]
      simp [hsg, hb]
  | s :: rest, buf, g, wsp, hws, hjg => by
    rw [helpers.chunkLoop]
    by_cases hcond : m < buf.length + s.length + 1
    · rw [if_pos hcond, List.nil_append, chunkLoop_extract m rest]
      obtain ⟨gs', h1, h2⟩ :=
        chunkLoop_grouping m rest s [s] [] (by simp) (by simp [joinSp])
      refine ⟨g :: gs', by simp [h1], ?_⟩
      rw [h2]
      have hsg : strip (joinSp g) = strip buf := by rw [hjg, strip_append_ws _ hws]
      by_cases hb : strip buf = []
      · simp [hsg, hb]
      · simp [hsg, hb]
    · rw [if_neg hcond]
      by_cases hbuf : buf = []
      · subst hbuf
        rw [if_pos rfl, List.append_nil]
        by_cases hg : g = []
        · subst hg
          obtain ⟨gs, h1, h2⟩ :=
            chunkLoop_grouping m rest ([] ++ s) [s] [] (by simp) (by simp [joinSp])
          exact ⟨gs, by simpa using h1, h2⟩
        · have hwsp : joinSp (g ++ [s]) = (wsp ++ [' ']) ++ ([] ++ s) := by
            rw [joinSp_append_singleton g hg s, hjg]
            simp
          obtain ⟨gs, h1, h2⟩ := chunkLoop_grouping m rest ([] ++ s) (g ++ [s])
            (wsp ++ [' ']) (by simp [hws, show isWS ' ' = true from by decide]) hwsp
          refine ⟨gs, ?_, h2⟩
          rw [h1]
          simp
      · rw [if_neg hbuf]
        have hg : g ≠ [] := by
          intro hgnil
          rw [hgnil] at hjg
          have : wsp ++ buf = [] := hjg.symm
          exact hbuf (List.append_eq_nil.mp this).2
        have hwsp : joinSp (g ++ [s]) = wsp ++ (buf ++ [' '] ++ s) := by
          rw [joinSp_append_singleton g hg s, hjg]
          simp
        obtain ⟨gs, h1, h2⟩ :=
          chunkLoop_grouping m rest (buf ++ [' '] ++ s) (g ++ [s]) wsp hws hwsp
        refine ⟨gs, ?_, h2⟩
        rw [h1]
        simp

theorem chunkLoop_mem (m : Nat) : ∀ (l chunks : List (List Char)) (buf c : List Char),
    c ∈ chunks → c ∈ helpers.chunkLoop m l chunks buf
  | [], chunks, buf, c, hc => by
    rw [helpers.chunkLoop]
    exact List.mem_append_left _ hc
  | s :: rest, chunks, buf, c, hc => by
    rw [helpers.chunkLoop]
    by_cases h : m < buf.length + s.length + 1
    · rw [if_pos h]
      exact chunkLoop_mem m rest _ s c (List.mem_append_left _ hc)
    · rw [if_neg h]
      exact chunkLoop_mem m rest chunks _ c hc

theorem chunkLoop_flush_oversized (m : Nat) :
    ∀ (l chunks : List (List Char)) (buf : List Char),
    m < buf.length → strip buf ≠ [] →
    strip buf ∈ helpers.chunkLoop m l chunks buf
  | [], chunks, buf, _, hne => by
    rw [helpers.chunkLoop, if_neg hne]
    exact List.mem_append_right _ (by simp)
  | s :: rest, chunks, buf, hlen, hne => by
    rw [helpers.chunkLoop,
      if_pos (show m < buf.length + s.length + 1 by omega), if_neg hne]
    exact chunkLoop_mem m rest _ s (strip buf) (List.mem_append_right _ (by simp))

theorem chunkLoop_oversized (m : Nat) :
    ∀ (l chunks : List (List Char)) (buf s : List Char),
    s ∈ l → m < s.length → strip s ≠ [] →
    strip s ∈ helpers.chunkLoop m l chunks buf
  | [], _, _, s, hs, _, _ => absurd hs (List.not_mem_nil s)
  | t' :: rest, chunks, buf, s, hs, hlen, hne => by
    rcases List.mem_cons.mp hs with h | h
    · subst h
      rw [helpers.chunkLoop,
        if_pos (show m < buf.length + s.length + 1 by omega)]
      exact chunkLoop_flush_oversized m rest _ s hlen hne
    · rw [helpers.chunkLoop]
      by_cases hcond : m < buf.length + t'.length + 1
      · rw [if_pos hcond]
        exact chunkLoop_oversized m rest _ t' s h hlen hne
      · rw [if_neg hcond]
        exact chunkLoop_oversized m rest chunks _ s h hlen hne

/-- Counterexample to claim C6 as stated: for the whitespace-only text
made of three spaces with maxChars 2, the single sentence produced by
the splitter is longer than maxChars, yet `chunk_text` returns no chunks
at all: the oversized sentence never becomes a chunk of its own (its
stripped buffer is empty and is dropped), so joining the chunks cannot
contain it either. -/
theorem claim6_counterexample :
    splitSentences [' ', ' ', ' '] = [[' ', ' ', ' ']] ∧
      2 < ([' ', ' ', ' '] : List Char).length ∧
      helpers.chunk_text [' ', ' ', ' '] 2 = [] :=
  ⟨by decide, by decide, by decide⟩

/-- Claim C6 (amended): `chunk_text t m` (i) short-circuits to `[t]` when
the text fits in one chunk; (ii) otherwise its chunks are the trimmed
single-space joins of a partition of the sentence list into consecutive
groups, with whitespace-only groups dropped — so sentence order is
preserved and no chunk boundary splits a sentence; (iii) joining the
chunks with a single space always reconstructs a whitespace-equivalent
version of `t` (equal after `clean_text`); and (iv) a sentence longer
than `m` is never split: whenever its trimmed form is non-empty it
appears as a chunk of its own, equal to that trimmed form (a
whitespace-only oversized sentence instead contributes no chunk, as the
counterexample shows). -/
theorem claim6_chunk_invariants (t : List Char) (m : Nat) :
    (t.length ≤ m → helpers.chunk_text t m = [t]) ∧
      (m < t.length → ∃ gs : List (List (List Char)),
        gs.flatten = splitSentences t ∧
          helpers.chunk_text t m =
            (gs.map (fun gr => strip (joinSp gr))).filter (fun c => !c.isEmpty)) ∧
      helpers.clean_text (joinSp (helpers.chunk_text t m)) = helpers.clean_text t ∧
      (∀ s ∈ splitSentences t, m < s.length → strip s ≠ [] →
        strip s ∈ helpers.chunk_text t m) := by
  refine ⟨?_, ?_, ?_, ?_⟩
  · intro h
    rw [helpers.chunk_text, if_pos h]
  · intro h
    rw [helpers.chunk_text, if_neg (by omega)]
    obtain ⟨gs, h1, h2⟩ :=
      chunkLoop_grouping m (splitSentences t) [] [] [] (by simp) (by simp [joinSp])
    exact ⟨gs, by simpa using h1, h2⟩
  · by_cases h : t.length ≤ m
    · rw [helpers.chunk_text, if_pos h]
      rfl
    · rw [helpers.chunk_text, if_neg h,
        clean_text_eq (joinSp (helpers.chunkLoop m (splitSentences t) [] [])),
        clean_text_eq t]
      congr 1
      rw [pySplit_joinSp, chunkLoop_words m]
      rw [show pySplit [] = [] from rfl]
      rw [← pySplit_joinSp (splitSentences t), pySplit_joinSp_splitSentences]
      simp
  · intro s hmem hlen hne
    have hlt : m < t.length := by
      have := mem_ssAux_length t false s hmem
      omega
    rw [helpers.chunk_text, if_neg (by omega)]
    exact chunkLoop_oversized m (splitSentences t) [] [] s hmem hlen hne

/-- Witness for claim C6 at concrete inputs: a short text is returned
unchanged as a single chunk, and chunking "aaaaaaa. b." at maxChars 5
keeps the oversized first sentence whole as a chunk of its own. -/
theorem claim6_witness :
    helpers.chunk_text "ab".toList 20 = ["ab".toList] ∧
      strip "aaaaaaa.".toList ∈ helpers.chunk_text "aaaaaaa. b.".toList 5 :=
  ⟨(claim6_chunk_invariants "ab".toList 20).1 (by decide),
   (claim6_chunk_invariants "aaaaaaa. b.".toList 5).2.2.2 "aaaaaaa.".toList
     (by decide) (by decide) (by decide)⟩
